import Mathlib

/-!
Verification of the geometric and numeric primitives of the
`ink-stroke-modeler` utility layer: the input-validation gate and the
`Vec2::AbsoluteAngleTo` computation from `ink_stroke_modeler/types.cc`, and
the scalar/angle utilities from `ink_stroke_modeler/internal/utils.h`.

Two embeddings are used, matching what each claim needs:

* a small IEEE-style floating-point carrier `FP` (a finite rational, NaN, or
  a signed infinity) with the comparison semantics of C floats (comparisons
  involving NaN are false), for the claims about finiteness checking and NaN
  propagation (`ValidateInput`, `Clamp01` on NaN, the error branch of
  `AbsoluteAngleTo`);
* exact real arithmetic for the numeric claims about ranges, interpolation
  and angles (`Clamp01`, `Normalize01`, `Interp`, `InterpAngle`, `Distance`,
  `NearestPointOnSegment`, the angle returned by `AbsoluteAngleTo`).
-/

namespace StrokeModel

/-- A floating-point value as the validation layer observes it: a finite
value (carried exactly as a rational), NaN, or one of the two infinities. -/
inductive FP where
  | fin : ℚ → FP
  | nan : FP
  | inf : FP
  | ninf : FP
deriving DecidableEq, Repr

namespace FP

/-- The `<` comparison of C floating point: any comparison involving NaN is
false; `-inf` is below every finite value and `inf`; finite values compare
by their numeric value. -/
def lt : FP → FP → Bool
  | .fin a, .fin b => a < b
  | .fin _, .inf => true
  | .ninf, .fin _ => true
  | .ninf, .inf => true
  | _, _ => false

/-- Predicate `std::isfinite`: neither NaN nor an infinity. -/
def IsFinite : FP → Bool
  | .fin _ => true
  | _ => false

/-- The numeric value of a finite `FP` (junk value `0` on non-finite ones;
only used under a finiteness guard). -/
def val : FP → ℚ
  | .fin q => q
  | _ => 0

/-- Rendering used in error messages. -/
def describe : FP → String
  | .fin q => toString q
  | .nan => "nan"
  | .inf => "inf"
  | .ninf => "-inf"

end FP

/-- Function `Clamp01` from `internal/utils.h`, on the floating-point carrier:
`if (value < 0) return 0; if (value > 1) return 1; return value;`. -/
def Clamp01F (value : FP) : FP :=
  if value.lt (.fin 0) then .fin 0
  else if (FP.fin 1).lt value then .fin 1
  else value

/-- The 2D vector of `types.h` with floating-point components, as the
validation code and `AbsoluteAngleTo` observe it. -/
structure Vec2F where
  x : FP
  y : FP
deriving DecidableEq, Repr

/-- Predicate `Vec2::IsFinite`: both components are finite. -/
def Vec2F.IsFinite (v : Vec2F) : Bool :=
  v.x.IsFinite && v.y.IsFinite

/-- Rendering of a vector, used in the `AbsoluteAngleTo` error message. -/
def Vec2F.describe (v : Vec2F) : String :=
  "(" ++ v.x.describe ++ ", " ++ v.y.describe ++ ")"

/-- Type `Time` of `types.h`: a wrapper around a floating-point seconds count,
read back through `.Value()`. -/
structure Time where
  value : FP
deriving DecidableEq, Repr

/-- Accessor `Time::Value`. -/
def Time.Value (t : Time) : FP := t.value

/-- The underlying integer tag of the C++ scoped enum `Input::EventType`.
An `int`-backed scoped enum can carry values outside the declared
enumerators, which is what the `default:` arm of `ValidateInput` catches,
so the tag is modelled as an unconstrained integer. -/
def EventTypeTag := Int
deriving DecidableEq

/-- Enumerator `Input::EventType::kDown`. -/
def kDown : EventTypeTag := (0 : Int)

/-- Enumerator `Input::EventType::kMove`. -/
def kMove : EventTypeTag := (1 : Int)

/-- Enumerator `Input::EventType::kUp`. -/
def kUp : EventTypeTag := (2 : Int)

/-- Type `Input` from `types.h`: one raw sample from a pointing device. -/
structure Input where
  event_type : EventTypeTag
  position : Vec2F
  time : Time
  pressure : FP
  tilt : FP
  orientation : FP

/-- Modelled from the spec: `ValidateIsFiniteNumber` is declared in
`ink_stroke_modeler/internal/validation.h`, which is not among the given
sources; per the spec it fails with an invalid-argument message identifying
the offending field exactly when the value is not finite. -/
def ValidateIsFiniteNumber (value : FP) (label : String) : Except String Unit :=
  if value.IsFinite then Except.ok ()
  else Except.error (label ++ " must be finite. Actual value: " ++ value.describe)

/-- Function `ValidateInput` from `types.cc`: the event-type switch, then the three
`RETURN_IF_ERROR(ValidateIsFiniteNumber(...))` checks in source order.
Pressure, tilt and orientation are not checked. -/
def ValidateInput (input : Input) : Except String Unit :=
  if input.event_type = kUp ∨ input.event_type = kMove ∨ input.event_type = kDown then
    (ValidateIsFiniteNumber input.position.x "Input.position.x").bind fun _ =>
    (ValidateIsFiniteNumber input.position.y "Input.position.y").bind fun _ =>
    (ValidateIsFiniteNumber input.time.Value "Input.time").bind fun _ =>
    Except.ok ()
  else Except.error "Unknown Input.event_type."

/-- Spec-side restatement of the validation contract, written from the
spec's words alone: check the event tag against the closed set
{Down, Move, Up}, then position.x, then position.y, then time, returning
the error of the first check that fails. -/
def ValidateInputSpec (input : Input) : Except String Unit :=
  if ¬ (input.event_type = kUp ∨ input.event_type = kMove ∨ input.event_type = kDown) then
    Except.error "Unknown Input.event_type."
  else if ¬ input.position.x.IsFinite then
    Except.error ("Input.position.x must be finite. Actual value: " ++ input.position.x.describe)
  else if ¬ input.position.y.IsFinite then
    Except.error ("Input.position.y must be finite. Actual value: " ++ input.position.y.describe)
  else if ¬ input.time.Value.IsFinite then
    Except.error ("Input.time must be finite. Actual value: " ++ input.time.Value.describe)
  else Except.ok ()

/-- The mathematical function computed by C `atan2(y, x)` on finite inputs
(no signed zero in the exact model): the angle of the point `(x, y)` in
`(-π, π]`, with `atan2 0 0 = 0`. -/
noncomputable def atan2 (y x : ℝ) : ℝ :=
  if 0 < x then Real.arctan (y / x)
  else if x < 0 then
    (if 0 ≤ y then Real.arctan (y / x) + Real.pi else Real.arctan (y / x) - Real.pi)
  else if 0 < y then Real.pi / 2
  else if y < 0 then -(Real.pi / 2)
  else 0

/-- Member function `Vec2::AbsoluteAngleTo` from `types.cc`: an invalid-argument error when
either vector is non-finite, otherwise `|atan2(det, dot)|`, where
`dot = x*other.x + y*other.y` and `det = x*other.y - y*other.x` are computed
on the (finite) component values. -/
noncomputable def AbsoluteAngleTo (self other : Vec2F) : Except String ℝ :=
  if ¬ self.IsFinite ∨ ¬ other.IsFinite then
    Except.error ("Non-finite inputs: this=" ++ self.describe ++ "; other=" ++ other.describe)
  else
    Except.ok |atan2
      ((self.x.val * other.y.val - self.y.val * other.x.val : ℚ) : ℝ)
      ((self.x.val * other.x.val + self.y.val * other.y.val : ℚ) : ℝ)|

/-! ### The scalar utilities of `internal/utils.h`, in exact real arithmetic -/

/-- Function `Clamp01` from `internal/utils.h`, in exact arithmetic. -/
noncomputable def Clamp01 (value : ℝ) : ℝ :=
  if value < 0 then 0
  else if value > 1 then 1
  else value

/-- Function `Normalize01` from `internal/utils.h`. -/
noncomputable def Normalize01 (start finish value : ℝ) : ℝ :=
  if start = finish then
    (if value > start then 1 else 0)
  else Clamp01 ((value - start) / (finish - start))

/-- Function `Interp` from `internal/utils.h`, instantiated at scalars:
`start + (end - start) * Clamp01(interp_amount)`. -/
noncomputable def Interp (start finish interp_amount : ℝ) : ℝ :=
  start + (finish - start) * Clamp01 interp_amount

/-- The first `while` loop of the `normalize_angle` lambda in `InterpAngle`:
`while (angle < 0) angle += 2 * M_PI`. -/
noncomputable def normUp (angle : ℝ) : ℝ :=
  if angle < 0 then normUp (angle + 2 * Real.pi) else angle
termination_by (Int.ceil (-angle / (2 * Real.pi))).toNat
decreasing_by
  have hpi : (0 : ℝ) < 2 * Real.pi := by positivity
  have hkey : -(angle + 2 * Real.pi) / (2 * Real.pi) = -angle / (2 * Real.pi) - 1 := by
    field_simp
    ring
  have hpos : (0 : ℝ) < -angle / (2 * Real.pi) := by
    apply div_pos _ hpi; linarith
  have hceil : (0 : ℤ) < Int.ceil (-angle / (2 * Real.pi)) := Int.ceil_pos.mpr hpos
  rw [hkey]
  have : Int.ceil (-angle / (2 * Real.pi) - (1 : ℤ)) =
      Int.ceil (-angle / (2 * Real.pi)) - 1 := Int.ceil_sub_int _ 1
  simp only [Int.cast_one] at this
  rw [this]
  omega

/-- The second `while` loop of the `normalize_angle` lambda in `InterpAngle`:
`while (angle > 2 * M_PI) angle -= 2 * M_PI`. -/
noncomputable def normDown (angle : ℝ) : ℝ :=
  if angle > 2 * Real.pi then normDown (angle - 2 * Real.pi) else angle
termination_by (Int.ceil (angle / (2 * Real.pi)) - 1).toNat
decreasing_by
  have hpi : (0 : ℝ) < 2 * Real.pi := by positivity
  have hkey : (angle - 2 * Real.pi) / (2 * Real.pi) = angle / (2 * Real.pi) - 1 := by
    field_simp
  have hgt : (1 : ℝ) < angle / (2 * Real.pi) := by
    rw [lt_div_iff₀ hpi]; linarith
  have hceil : (1 : ℤ) < Int.ceil (angle / (2 * Real.pi)) := by
    exact Int.lt_ceil.mpr (by exact_mod_cast hgt)
  rw [hkey]
  have : Int.ceil (angle / (2 * Real.pi) - (1 : ℤ)) =
      Int.ceil (angle / (2 * Real.pi)) - 1 := Int.ceil_sub_int _ 1
  simp only [Int.cast_one] at this
  rw [this]
  omega

/-- The `normalize_angle` lambda of `InterpAngle`: the two `while` loops in
sequence. -/
noncomputable def normalize_angle (angle : ℝ) : ℝ :=
  normDown (normUp angle)

/-- The adjusted end angle of `InterpAngle`: after normalizing both inputs,
shift `end` by `±2π` when the difference exceeds `π` in magnitude, so the
interpolation runs along the shorter arc. -/
noncomputable def interpAngleEnd (start finish : ℝ) : ℝ :=
  if normalize_angle finish - normalize_angle start < -Real.pi then
    normalize_angle finish + 2 * Real.pi
  else if normalize_angle finish - normalize_angle start > Real.pi then
    normalize_angle finish - 2 * Real.pi
  else normalize_angle finish

/-- Function `InterpAngle` from `internal/utils.h`: normalize both angles, adjust the
end for the shorter arc, interpolate, and normalize the result. -/
noncomputable def InterpAngle (start finish interp_amount : ℝ) : ℝ :=
  normalize_angle (Interp (normalize_angle start) (interpAngleEnd start finish) interp_amount)

/-! ### Vector geometry of `internal/utils.h`, in exact real arithmetic -/

/-- The 2D vector of `types.h` with exact real components, used by the
geometry utilities on finite data. -/
structure Vec2 where
  x : ℝ
  y : ℝ

/-- Modelled from the spec: component-wise subtraction of `Vec2` (declared
in `ink_stroke_modeler/types.h`, which is not among the given sources). -/
instance : Sub Vec2 := ⟨fun a b => ⟨a.x - b.x, a.y - b.y⟩⟩

theorem Vec2.sub_def (a b : Vec2) : a - b = ⟨a.x - b.x, a.y - b.y⟩ := rfl

/-- Modelled from the spec: `Vec2::Magnitude`, the Euclidean norm (declared
in `ink_stroke_modeler/types.h`, which is not among the given sources). -/
noncomputable def Vec2.Magnitude (v : Vec2) : ℝ :=
  Real.sqrt (v.x * v.x + v.y * v.y)

/-- Function `Distance` from `internal/utils.h`: `(end - start).Magnitude()`. -/
noncomputable def Distance (start finish : Vec2) : ℝ :=
  (finish - start).Magnitude

/-- The `dot_product` lambda inside `NearestPointOnSegment`. -/
def dot_product (lhs rhs : Vec2) : ℝ :=
  lhs.x * rhs.x + lhs.y * rhs.y

open Classical in
/-- Function `NearestPointOnSegment` from `internal/utils.h`. -/
noncomputable def NearestPointOnSegment (segment_start segment_end point : Vec2) : ℝ :=
  if segment_start = segment_end then 0
  else
    Clamp01 (dot_product (point - segment_start) (segment_end - segment_start) /
      dot_product (segment_end - segment_start) (segment_end - segment_start))

/-! ### Loop-iteration counts and a fuelled loop for `InterpAngle`

The `normalize_angle` lambda is the only loop in the given sources. To state
termination and iteration-bound claims about it, the loops are additionally
modelled as fuelled step functions returning `none` when the fuel runs out
before the loop condition turns false, together with exact iteration
counters. -/

/-- Number of iterations of the first `while` loop of `normalize_angle`. -/
noncomputable def stepsUp (angle : ℝ) : ℕ :=
  if angle < 0 then stepsUp (angle + 2 * Real.pi) + 1 else 0
termination_by (Int.ceil (-angle / (2 * Real.pi))).toNat
decreasing_by
  have hpi : (0 : ℝ) < 2 * Real.pi := by positivity
  have hkey : -(angle + 2 * Real.pi) / (2 * Real.pi) = -angle / (2 * Real.pi) - 1 := by
    field_simp
    ring
  have hpos : (0 : ℝ) < -angle / (2 * Real.pi) := by
    apply div_pos _ hpi; linarith
  have hceil : (0 : ℤ) < Int.ceil (-angle / (2 * Real.pi)) := Int.ceil_pos.mpr hpos
  rw [hkey]
  have : Int.ceil (-angle / (2 * Real.pi) - (1 : ℤ)) =
      Int.ceil (-angle / (2 * Real.pi)) - 1 := Int.ceil_sub_int _ 1
  simp only [Int.cast_one] at this
  rw [this]
  omega

/-- Number of iterations of the second `while` loop of `normalize_angle`. -/
noncomputable def stepsDown (angle : ℝ) : ℕ :=
  if angle > 2 * Real.pi then stepsDown (angle - 2 * Real.pi) + 1 else 0
termination_by (Int.ceil (angle / (2 * Real.pi)) - 1).toNat
decreasing_by
  have hpi : (0 : ℝ) < 2 * Real.pi := by positivity
  have hkey : (angle - 2 * Real.pi) / (2 * Real.pi) = angle / (2 * Real.pi) - 1 := by
    field_simp
  have hgt : (1 : ℝ) < angle / (2 * Real.pi) := by
    rw [lt_div_iff₀ hpi]; linarith
  have hceil : (1 : ℤ) < Int.ceil (angle / (2 * Real.pi)) := by
    exact Int.lt_ceil.mpr (by exact_mod_cast hgt)
  rw [hkey]
  have : Int.ceil (angle / (2 * Real.pi) - (1 : ℤ)) =
      Int.ceil (angle / (2 * Real.pi)) - 1 := Int.ceil_sub_int _ 1
  simp only [Int.cast_one] at this
  rw [this]
  omega

/-- Total loop iterations of one `normalize_angle` call. -/
noncomputable def normalizeAngleSteps (angle : ℝ) : ℕ :=
  stepsUp angle + stepsDown (normUp angle)

/-- Total loop iterations of one `InterpAngle` call: the three
`normalize_angle` invocations on `start`, `end`, and the interpolant. -/
noncomputable def interpAngleSteps (start finish interp_amount : ℝ) : ℕ :=
  normalizeAngleSteps start + normalizeAngleSteps finish +
    normalizeAngleSteps (Interp (normalize_angle start) (interpAngleEnd start finish) interp_amount)

/-- The first `while` loop of `normalize_angle` with a fuelled iteration
budget: `none` means the budget was exhausted before the loop exited. -/
noncomputable def normUpFuel : ℕ → ℝ → Option ℝ
  | 0, angle => if angle < 0 then none else some angle
  | fuel + 1, angle =>
    if angle < 0 then normUpFuel fuel (angle + 2 * Real.pi) else some angle

/-- The second `while` loop of `normalize_angle`, fuelled. -/
noncomputable def normDownFuel : ℕ → ℝ → Option ℝ
  | 0, angle => if angle > 2 * Real.pi then none else some angle
  | fuel + 1, angle =>
    if angle > 2 * Real.pi then normDownFuel fuel (angle - 2 * Real.pi) else some angle

/-- The `normalize_angle` lambda, fuelled. -/
noncomputable def normalizeAngleFuel (fuel : ℕ) (angle : ℝ) : Option ℝ :=
  (normUpFuel fuel angle).bind (normDownFuel fuel)

/-- Function `InterpAngle`, fuelled: each of the three `normalize_angle` loops may
run at most `fuel` iterations per `while`. -/
noncomputable def interpAngleFuel (fuel : ℕ) (start finish interp_amount : ℝ) : Option ℝ :=
  (normalizeAngleFuel fuel start).bind fun ns =>
  (normalizeAngleFuel fuel finish).bind fun ne =>
  normalizeAngleFuel fuel (Interp ns
    (if ne - ns < -Real.pi then ne + 2 * Real.pi
     else if ne - ns > Real.pi then ne - 2 * Real.pi
     else ne) interp_amount)

/-! ### Helper lemmas -/

theorem normUp_eq (angle : ℝ) :
    normUp angle = if angle < 0 then normUp (angle + 2 * Real.pi) else angle := by
  rw [normUp]

theorem normDown_eq (angle : ℝ) :
    normDown angle = if angle > 2 * Real.pi then normDown (angle - 2 * Real.pi) else angle := by
  rw [normDown]

theorem stepsUp_eq (angle : ℝ) :
    stepsUp angle = if angle < 0 then stepsUp (angle + 2 * Real.pi) + 1 else 0 := by
  rw [stepsUp]

theorem stepsDown_eq (angle : ℝ) :
    stepsDown angle = if angle > 2 * Real.pi then stepsDown (angle - 2 * Real.pi) + 1 else 0 := by
  rw [stepsDown]

theorem normUp_of_nonneg {angle : ℝ} (h : 0 ≤ angle) : normUp angle = angle := by
  rw [normUp_eq, if_neg (not_lt.mpr h)]

theorem normUp_nonneg (angle : ℝ) : 0 ≤ normUp angle := by
  induction angle using normUp.induct with
  | case1 a h ih => rw [normUp_eq, if_pos h]; exact ih
  | case2 a h => rw [normUp_eq, if_neg h]; exact not_lt.mp h

theorem normDown_of_le {angle : ℝ} (h : angle ≤ 2 * Real.pi) : normDown angle = angle := by
  rw [normDown_eq, if_neg (not_lt.mpr h)]

theorem normDown_le (angle : ℝ) : normDown angle ≤ 2 * Real.pi := by
  induction angle using normDown.induct with
  | case1 a h ih => rw [normDown_eq, if_pos h]; exact ih
  | case2 a h => rw [normDown_eq, if_neg h]; exact not_lt.mp h

theorem normDown_nonneg {angle : ℝ} (h : 0 ≤ angle) : 0 ≤ normDown angle := by
  induction angle using normDown.induct with
  | case1 a hgt ih =>
    rw [normDown_eq, if_pos hgt]
    apply ih
    have hpi : (0 : ℝ) < 2 * Real.pi := by positivity
    linarith [hgt]
  | case2 a hle => rw [normDown_eq, if_neg hle]; exact h

theorem normalize_angle_nonneg (angle : ℝ) : 0 ≤ normalize_angle angle :=
  normDown_nonneg (normUp_nonneg angle)

theorem normalize_angle_le (angle : ℝ) : normalize_angle angle ≤ 2 * Real.pi :=
  normDown_le (normUp angle)

theorem normalize_angle_of_mem {angle : ℝ} (h0 : 0 ≤ angle) (h2 : angle ≤ 2 * Real.pi) :
    normalize_angle angle = angle := by
  unfold normalize_angle
  rw [normUp_of_nonneg h0, normDown_of_le h2]

theorem clamp01_nonneg (value : ℝ) : 0 ≤ Clamp01 value := by
  unfold Clamp01
  split_ifs <;> linarith

theorem clamp01_le_one (value : ℝ) : Clamp01 value ≤ 1 := by
  unfold Clamp01
  split_ifs <;> linarith

theorem clamp01_of_mem {value : ℝ} (h0 : 0 ≤ value) (h1 : value ≤ 1) :
    Clamp01 value = value := by
  unfold Clamp01
  rw [if_neg (not_lt.mpr h0), if_neg (not_lt.mpr h1)]

/-- The shorter-arc adjustment leaves the end angle within `π` of the
normalized start angle. -/
theorem interpAngleEnd_close (start finish : ℝ) :
    |interpAngleEnd start finish - normalize_angle start| ≤ Real.pi := by
  have hs0 := normalize_angle_nonneg start
  have hs2 := normalize_angle_le start
  have he0 := normalize_angle_nonneg finish
  have he2 := normalize_angle_le finish
  unfold interpAngleEnd
  split_ifs with h1 h2 <;> rw [abs_le] <;> constructor <;> linarith

/-- The interpolated angle, before the final normalization, stays within `π`
of the normalized start angle: interpolation travels along the shorter arc. -/
theorem interp_close (start finish interp_amount : ℝ) :
    |Interp (normalize_angle start) (interpAngleEnd start finish) interp_amount -
      normalize_angle start| ≤ Real.pi := by
  have hend := interpAngleEnd_close start finish
  have hc0 := clamp01_nonneg interp_amount
  have hc1 := clamp01_le_one interp_amount
  unfold Interp
  have hrw : normalize_angle start +
      (interpAngleEnd start finish - normalize_angle start) * Clamp01 interp_amount -
      normalize_angle start =
      (interpAngleEnd start finish - normalize_angle start) * Clamp01 interp_amount := by
    ring
  rw [hrw, abs_mul]
  calc |interpAngleEnd start finish - normalize_angle start| * |Clamp01 interp_amount|
      ≤ Real.pi * 1 := by
        apply mul_le_mul hend _ (abs_nonneg _) Real.pi_nonneg
        rw [abs_of_nonneg hc0]
        exact hc1
    _ = Real.pi := mul_one _

theorem arctan_nonpos {x : ℝ} (h : x ≤ 0) : Real.arctan x ≤ 0 := by
  have := Real.arctan_strictMono.monotone h
  rwa [Real.arctan_zero] at this

theorem arctan_nonneg {x : ℝ} (h : 0 ≤ x) : 0 ≤ Real.arctan x := by
  have := Real.arctan_strictMono.monotone h
  rwa [Real.arctan_zero] at this

theorem atan2_le_pi (y x : ℝ) : atan2 y x ≤ Real.pi := by
  have hpi := Real.pi_pos
  unfold atan2
  split_ifs with hx hx' hy hy1 hy2
  · linarith [Real.arctan_lt_pi_div_two (y / x)]
  · have : y / x ≤ 0 := div_nonpos_of_nonneg_of_nonpos hy hx'.le
    linarith [arctan_nonpos this]
  · linarith [Real.arctan_lt_pi_div_two (y / x)]
  · linarith
  · linarith
  · linarith

theorem neg_pi_le_atan2 (y x : ℝ) : -Real.pi ≤ atan2 y x := by
  have hpi := Real.pi_pos
  unfold atan2
  split_ifs with hx hx' hy hy1 hy2
  · linarith [Real.neg_pi_div_two_lt_arctan (y / x)]
  · linarith [Real.neg_pi_div_two_lt_arctan (y / x)]
  · have : 0 ≤ y / x := div_nonneg_of_nonpos (not_le.mp hy).le hx'.le
    linarith [arctan_nonneg this]
  · linarith
  · linarith
  · linarith

theorem abs_atan2_le_pi (y x : ℝ) : |atan2 y x| ≤ Real.pi :=
  abs_le.mpr ⟨neg_pi_le_atan2 y x, atan2_le_pi y x⟩

/-- Negating the first argument of `atan2` does not change its absolute
value: the underlying symmetry behind `AbsoluteAngleTo(a,b) ==
AbsoluteAngleTo(b,a)`. -/
theorem abs_atan2_neg_left (y x : ℝ) : |atan2 (-y) x| = |atan2 y x| := by
  unfold atan2
  rcases lt_trichotomy 0 x with hx | hx | hx
  · rw [if_pos hx, if_pos hx, neg_div, Real.arctan_neg, abs_neg]
  · have hnx : ¬ 0 < x := by rw [← hx]; exact lt_irrefl 0
    have hnx' : ¬ x < 0 := by rw [← hx]; exact lt_irrefl 0
    rw [if_neg hnx, if_neg hnx, if_neg hnx', if_neg hnx']
    rcases lt_trichotomy 0 y with hy | hy | hy
    · rw [if_pos hy, if_neg (not_lt.mpr (by linarith : -y ≤ 0)),
        if_pos (by linarith : -y < 0), abs_neg]
    · rw [← hy, neg_zero]
    · rw [if_neg (not_lt.mpr hy.le), if_pos hy, if_pos (by linarith : 0 < -y), abs_neg]
  · have hnx : ¬ 0 < x := not_lt.mpr hx.le
    rw [if_neg hnx, if_neg hnx, if_pos hx, if_pos hx]
    rcases lt_trichotomy 0 y with hy | hy | hy
    · rw [if_pos hy.le, if_neg (not_le.mpr (by linarith : -y < 0)),
        neg_div, Real.arctan_neg]
      rw [show -Real.arctan (y / x) - Real.pi = -(Real.arctan (y / x) + Real.pi) by ring,
        abs_neg]
    · rw [← hy, neg_zero]
    · rw [if_neg (not_le.mpr hy), if_pos (by linarith : (0:ℝ) ≤ -y),
        neg_div, Real.arctan_neg]
      rw [show -Real.arctan (y / x) + Real.pi = -(Real.arctan (y / x) - Real.pi) by ring,
        abs_neg]

theorem stepsUp_of_nonneg {angle : ℝ} (h : 0 ≤ angle) : stepsUp angle = 0 := by
  rw [stepsUp_eq, if_neg (not_lt.mpr h)]

theorem stepsDown_of_le {angle : ℝ} (h : angle ≤ 2 * Real.pi) : stepsDown angle = 0 := by
  rw [stepsDown_eq, if_neg (not_lt.mpr h)]

/-- With fuel at least the loop's iteration count, the fuelled first loop
completes and agrees with the total function. -/
theorem normUpFuel_complete :
    ∀ (fuel : ℕ) (angle : ℝ), stepsUp angle ≤ fuel →
      normUpFuel fuel angle = some (normUp angle) := by
  intro fuel
  induction fuel with
  | zero =>
    intro a h
    by_cases ha : a < 0
    · rw [stepsUp_eq, if_pos ha] at h
      omega
    · simp [normUpFuel, ha, normUp_of_nonneg (not_lt.mp ha)]
  | succ n ih =>
    intro a h
    by_cases ha : a < 0
    · have hs : stepsUp (a + 2 * Real.pi) ≤ n := by
        rw [stepsUp_eq, if_pos ha] at h
        omega
      calc normUpFuel (n + 1) a = normUpFuel n (a + 2 * Real.pi) := by
            simp [normUpFuel, ha]
        _ = some (normUp (a + 2 * Real.pi)) := ih _ hs
        _ = some (normUp a) := by conv_rhs => rw [normUp_eq, if_pos ha]
    · simp [normUpFuel, ha, normUp_of_nonneg (not_lt.mp ha)]

/-- With fuel at least the loop's iteration count, the fuelled second loop
completes and agrees with the total function. -/
theorem normDownFuel_complete :
    ∀ (fuel : ℕ) (angle : ℝ), stepsDown angle ≤ fuel →
      normDownFuel fuel angle = some (normDown angle) := by
  intro fuel
  induction fuel with
  | zero =>
    intro a h
    by_cases ha : a > 2 * Real.pi
    · rw [stepsDown_eq, if_pos ha] at h
      omega
    · simp [normDownFuel, ha, normDown_of_le (not_lt.mp ha)]
  | succ n ih =>
    intro a h
    by_cases ha : a > 2 * Real.pi
    · have hs : stepsDown (a - 2 * Real.pi) ≤ n := by
        rw [stepsDown_eq, if_pos ha] at h
        omega
      calc normDownFuel (n + 1) a = normDownFuel n (a - 2 * Real.pi) := by
            simp [normDownFuel, ha]
        _ = some (normDown (a - 2 * Real.pi)) := ih _ hs
        _ = some (normDown a) := by conv_rhs => rw [normDown_eq, if_pos ha]
    · simp [normDownFuel, ha, normDown_of_le (not_lt.mp ha)]

theorem normalizeAngleFuel_complete (fuel : ℕ) (angle : ℝ)
    (h1 : stepsUp angle ≤ fuel) (h2 : stepsDown (normUp angle) ≤ fuel) :
    normalizeAngleFuel fuel angle = some (normalize_angle angle) := by
  unfold normalizeAngleFuel normalize_angle
  rw [normUpFuel_complete fuel angle h1]
  exact normDownFuel_complete fuel _ h2

theorem normalizeAngleSteps_of_mem {angle : ℝ} (h0 : 0 ≤ angle)
    (h2 : angle ≤ 2 * Real.pi) : normalizeAngleSteps angle = 0 := by
  unfold normalizeAngleSteps
  rw [stepsUp_of_nonneg h0, normUp_of_nonneg h0, stepsDown_of_le h2]

/-- An angle within one extra turn of `[0, 2π]` is normalized in at most two
loop iterations in total. -/
theorem normalizeAngleSteps_window {angle : ℝ} (hlo : -Real.pi ≤ angle)
    (hhi : angle ≤ 3 * Real.pi) : normalizeAngleSteps angle ≤ 2 := by
  have hpi := Real.pi_pos
  unfold normalizeAngleSteps
  by_cases ha : 0 ≤ angle
  · rw [stepsUp_of_nonneg ha, normUp_of_nonneg ha]
    by_cases hb : angle ≤ 2 * Real.pi
    · rw [stepsDown_of_le hb]
      omega
    · rw [stepsDown_eq, if_pos (not_le.mp hb),
        stepsDown_of_le (by linarith : angle - 2 * Real.pi ≤ 2 * Real.pi)]
      omega
  · have ha' : angle < 0 := not_le.mp ha
    have hup : 0 ≤ angle + 2 * Real.pi := by linarith
    rw [stepsUp_eq, if_pos ha', stepsUp_of_nonneg hup, normUp_eq, if_pos ha',
      normUp_of_nonneg hup, stepsDown_of_le (by linarith : angle + 2 * Real.pi ≤ 2 * Real.pi)]
    omega

/-- The interpolated raw angle lies within one extra turn of the normalized
range: the window in which normalization is constant-bounded. -/
theorem interp_window (start finish interp_amount : ℝ) :
    -Real.pi ≤ Interp (normalize_angle start) (interpAngleEnd start finish) interp_amount ∧
      Interp (normalize_angle start) (interpAngleEnd start finish) interp_amount ≤
        3 * Real.pi := by
  have hclose := abs_le.mp (interp_close start finish interp_amount)
  have h0 := normalize_angle_nonneg start
  have h2 := normalize_angle_le start
  constructor <;> [linarith [hclose.1]; linarith [hclose.2]]

/-- Exact iteration count of the first loop on inputs `n + 1` full turns
below `π`: the count grows linearly with the distance below zero. -/
theorem stepsUp_turns : ∀ n : ℕ,
    stepsUp (Real.pi - 2 * Real.pi * ((n : ℝ) + 1)) = n + 1 := by
  intro n
  induction n with
  | zero =>
    have hneg : Real.pi - 2 * Real.pi * (((0 : ℕ) : ℝ) + 1) < 0 := by
      push_cast
      nlinarith [Real.pi_pos]
    rw [stepsUp_eq, if_pos hneg,
      show Real.pi - 2 * Real.pi * (((0 : ℕ) : ℝ) + 1) + 2 * Real.pi = Real.pi by
        push_cast; ring,
      stepsUp_of_nonneg Real.pi_pos.le]
  | succ n ih =>
    have hneg : Real.pi - 2 * Real.pi * (((n + 1 : ℕ) : ℝ) + 1) < 0 := by
      push_cast
      nlinarith [Real.pi_pos, mul_nonneg Real.pi_pos.le (Nat.cast_nonneg n : (0:ℝ) ≤ n)]
    rw [stepsUp_eq, if_pos hneg,
      show Real.pi - 2 * Real.pi * (((n + 1 : ℕ) : ℝ) + 1) + 2 * Real.pi =
          Real.pi - 2 * Real.pi * ((n : ℝ) + 1) by push_cast; ring,
      ih]

/-! ### Claim theorems -/

/-- C1: `ValidateInput(event)` succeeds exactly when the event type is one
of {Down, Move, Up} and position.x, position.y and time are finite;
otherwise it returns an invalid-argument error for the first offending
field, checked in the order event type, position.x, position.y, time (the
equality with `ValidateInputSpec`, which performs exactly those checks in
that order); and its result never depends on pressure, tilt or
orientation. -/
theorem validateInput_correct (input : Input) :
    ValidateInput input = ValidateInputSpec input ∧
    (∀ p t o : FP,
      ValidateInput { input with pressure := p, tilt := t, orientation := o } =
        ValidateInput input) ∧
    (ValidateInput input = Except.ok () ↔
      ((input.event_type = kUp ∨ input.event_type = kMove ∨ input.event_type = kDown) ∧
        input.position.x.IsFinite = true ∧
        input.position.y.IsFinite = true ∧
        input.time.Value.IsFinite = true)) := by
  refine ⟨?_, fun p t o => rfl, ?_⟩ <;>
  · by_cases htag :
      input.event_type = kUp ∨ input.event_type = kMove ∨ input.event_type = kDown <;>
    cases hx : input.position.x.IsFinite <;>
    cases hy : input.position.y.IsFinite <;>
    cases ht : input.time.Value.IsFinite <;>
    simp [ValidateInput, ValidateInputSpec, ValidateIsFiniteNumber, htag, hx, hy, ht,
      Except.bind]

/-- C9: `Clamp01` is idempotent on every floating-point input, returns a
value in `[0, 1]` on every finite input, and returns NaN unchanged (the
comparisons `NaN < 0` and `NaN > 1` are both false). -/
theorem clamp01F_spec (v : FP) :
    Clamp01F (Clamp01F v) = Clamp01F v ∧
    (v.IsFinite = true → ∃ q : ℚ, Clamp01F v = FP.fin q ∧ 0 ≤ q ∧ q ≤ 1) ∧
    Clamp01F FP.nan = FP.nan := by
  refine ⟨?_, ?_, by decide⟩
  · rcases v with q | _ | _ | _
    · by_cases h0 : q < 0
      · simp [Clamp01F, FP.lt, h0]
      · by_cases h1 : 1 < q
        · simp [Clamp01F, FP.lt, h0, h1]
        · simp [Clamp01F, FP.lt, h0, h1]
    · decide
    · decide
    · decide
  · rcases v with q | _ | _ | _
    · intro _
      by_cases h0 : q < 0
      · exact ⟨0, by simp [Clamp01F, FP.lt, h0], le_refl 0, by norm_num⟩
      · by_cases h1 : 1 < q
        · exact ⟨1, by simp [Clamp01F, FP.lt, h0, h1], by norm_num, le_refl 1⟩
        · exact ⟨q, by simp [Clamp01F, FP.lt, h0, h1], not_lt.mp h0, not_lt.mp h1⟩
    · intro h
      exact absurd h (by decide)
    · intro h
      exact absurd h (by decide)
    · intro h
      exact absurd h (by decide)

/-- Witness for C9 at the concrete inputs `3/2` (finite) and NaN. -/
theorem clamp01F_spec_witness :
    (∃ q : ℚ, Clamp01F (FP.fin (3 / 2)) = FP.fin q ∧ 0 ≤ q ∧ q ≤ 1) ∧
    Clamp01F (Clamp01F (FP.fin (3 / 2))) = Clamp01F (FP.fin (3 / 2)) ∧
    Clamp01F FP.nan = FP.nan :=
  ⟨(clamp01F_spec (FP.fin (3 / 2))).2.1 (by decide),
    (clamp01F_spec (FP.fin (3 / 2))).1,
    (clamp01F_spec (FP.fin (3 / 2))).2.2⟩

/-- C10: `AbsoluteAngleTo` succeeds exactly on finite inputs — including
zero vectors — and non-finiteness is the only error condition. -/
theorem absoluteAngleTo_ok_iff (self other : Vec2F) :
    (∃ θ : ℝ, AbsoluteAngleTo self other = Except.ok θ) ↔
      (self.IsFinite = true ∧ other.IsFinite = true) := by
  by_cases h : self.IsFinite = true ∧ other.IsFinite = true
  · have hcond : ¬ (¬ self.IsFinite ∨ ¬ other.IsFinite) := by
      simp [h.1, h.2]
    rw [AbsoluteAngleTo, if_neg hcond]
    simp [h.1, h.2]
  · have hcond : (¬ self.IsFinite ∨ ¬ other.IsFinite) := by
      rcases not_and_or.mp h with h' | h' <;> simp_all
    rw [AbsoluteAngleTo, if_pos hcond]
    simp [h]

/-- C2: `AbsoluteAngleTo` returns an invalid-argument error when either
vector is non-finite, and otherwise returns
`|atan2(cross(self, other), dot(self, other))|`, which lies in `[0, π]`. -/
theorem absoluteAngleTo_spec (self other : Vec2F) :
    (¬ (self.IsFinite = true ∧ other.IsFinite = true) →
      ∃ msg : String, AbsoluteAngleTo self other = Except.error msg) ∧
    (self.IsFinite = true → other.IsFinite = true →
      AbsoluteAngleTo self other =
        Except.ok |atan2
          ((self.x.val * other.y.val - self.y.val * other.x.val : ℚ) : ℝ)
          ((self.x.val * other.x.val + self.y.val * other.y.val : ℚ) : ℝ)| ∧
      ∀ θ : ℝ, AbsoluteAngleTo self other = Except.ok θ → 0 ≤ θ ∧ θ ≤ Real.pi) := by
  constructor
  · intro h
    have hcond : (¬ self.IsFinite ∨ ¬ other.IsFinite) := by
      rcases not_and_or.mp h with h' | h' <;> simp_all
    exact ⟨_, by rw [AbsoluteAngleTo, if_pos hcond]⟩
  · intro hs ho
    have hcond : ¬ (¬ self.IsFinite ∨ ¬ other.IsFinite) := by
      simp [hs, ho]
    have hok : AbsoluteAngleTo self other =
        Except.ok |atan2
          ((self.x.val * other.y.val - self.y.val * other.x.val : ℚ) : ℝ)
          ((self.x.val * other.x.val + self.y.val * other.y.val : ℚ) : ℝ)| := by
      rw [AbsoluteAngleTo, if_neg hcond]
    refine ⟨hok, fun θ hθ => ?_⟩
    rw [hok] at hθ
    have : θ = |atan2
        ((self.x.val * other.y.val - self.y.val * other.x.val : ℚ) : ℝ)
        ((self.x.val * other.x.val + self.y.val * other.y.val : ℚ) : ℝ)| :=
      (Except.ok.injEq _ _).mp hθ.symm
    rw [this]
    exact ⟨abs_nonneg _, abs_atan2_le_pi _ _⟩

/-- Witness for C2: the error case at a NaN input and the success case at
the finite vectors `(1, 0)` and `(0, 1)`. -/
theorem absoluteAngleTo_spec_witness :
    (∃ msg : String,
      AbsoluteAngleTo ⟨FP.nan, FP.fin 0⟩ ⟨FP.fin 0, FP.fin 1⟩ = Except.error msg) ∧
    ∀ θ : ℝ,
      AbsoluteAngleTo ⟨FP.fin 1, FP.fin 0⟩ ⟨FP.fin 0, FP.fin 1⟩ = Except.ok θ →
        0 ≤ θ ∧ θ ≤ Real.pi :=
  ⟨(absoluteAngleTo_spec ⟨FP.nan, FP.fin 0⟩ ⟨FP.fin 0, FP.fin 1⟩).1 (by decide),
    ((absoluteAngleTo_spec ⟨FP.fin 1, FP.fin 0⟩ ⟨FP.fin 0, FP.fin 1⟩).2
      (by decide) (by decide)).2⟩

/-- C8: `AbsoluteAngleTo` is symmetric on finite non-zero vectors. -/
theorem absoluteAngleTo_symm (a b : Vec2F) (ha : a.IsFinite = true)
    (hb : b.IsFinite = true) (ha0 : a ≠ ⟨FP.fin 0, FP.fin 0⟩)
    (hb0 : b ≠ ⟨FP.fin 0, FP.fin 0⟩) :
    AbsoluteAngleTo a b = AbsoluteAngleTo b a := by
  have hc1 : ¬ (¬ a.IsFinite ∨ ¬ b.IsFinite) := by simp [ha, hb]
  have hc2 : ¬ (¬ b.IsFinite ∨ ¬ a.IsFinite) := by simp [ha, hb]
  rw [AbsoluteAngleTo, if_neg hc1, AbsoluteAngleTo, if_neg hc2]
  congr 1
  have hdet : ((b.x.val * a.y.val - b.y.val * a.x.val : ℚ) : ℝ) =
      -(((a.x.val * b.y.val - a.y.val * b.x.val : ℚ) : ℝ)) := by
    push_cast
    ring
  have hdot : ((b.x.val * a.x.val + b.y.val * a.y.val : ℚ) : ℝ) =
      ((a.x.val * b.x.val + a.y.val * b.y.val : ℚ) : ℝ) := by
    push_cast
    ring
  rw [hdet, hdot]
  exact (abs_atan2_neg_left _ _).symm

/-- Witness for C8 at the finite non-zero vectors `(1, 0)` and `(0, 1)`. -/
theorem absoluteAngleTo_symm_witness :
    AbsoluteAngleTo ⟨FP.fin 1, FP.fin 0⟩ ⟨FP.fin 0, FP.fin 1⟩ =
      AbsoluteAngleTo ⟨FP.fin 0, FP.fin 1⟩ ⟨FP.fin 1, FP.fin 0⟩ :=
  absoluteAngleTo_symm ⟨FP.fin 1, FP.fin 0⟩ ⟨FP.fin 0, FP.fin 1⟩
    (by decide) (by decide) (by decide) (by decide)

/-- C5: `NearestPointOnSegment` always returns a value in `[0, 1]`; it
returns `0` on a degenerate segment, and otherwise the projection fraction
clamped to `[0, 1]`. -/
theorem nearestPointOnSegment_spec (segment_start segment_end point : Vec2) :
    (0 ≤ NearestPointOnSegment segment_start segment_end point ∧
      NearestPointOnSegment segment_start segment_end point ≤ 1) ∧
    (segment_start = segment_end →
      NearestPointOnSegment segment_start segment_end point = 0) ∧
    (segment_start ≠ segment_end →
      NearestPointOnSegment segment_start segment_end point =
        Clamp01 (dot_product (point - segment_start) (segment_end - segment_start) /
          dot_product (segment_end - segment_start) (segment_end - segment_start))) := by
  by_cases h : segment_start = segment_end
  · rw [NearestPointOnSegment, if_pos h]
    exact ⟨⟨le_refl 0, by norm_num⟩, fun _ => rfl, fun hne => absurd h hne⟩
  · rw [NearestPointOnSegment, if_neg h]
    exact ⟨⟨clamp01_nonneg _, clamp01_le_one _⟩, fun he => absurd he h, fun _ => rfl⟩

/-- Witness for C5 at the degenerate segment `(3,3)-(3,3)` and the segment
`(0,0)-(10,0)` with query point `(5,5)`. -/
theorem nearestPointOnSegment_spec_witness :
    NearestPointOnSegment ⟨3, 3⟩ ⟨3, 3⟩ ⟨9, 9⟩ = 0 ∧
    ((⟨0, 0⟩ : Vec2) ≠ ⟨10, 0⟩ ∧
      NearestPointOnSegment ⟨0, 0⟩ ⟨10, 0⟩ ⟨5, 5⟩ =
        Clamp01 (dot_product ((⟨5, 5⟩ : Vec2) - ⟨0, 0⟩) ((⟨10, 0⟩ : Vec2) - ⟨0, 0⟩) /
          dot_product ((⟨10, 0⟩ : Vec2) - ⟨0, 0⟩) ((⟨10, 0⟩ : Vec2) - ⟨0, 0⟩))) := by
  have hne : (⟨0, 0⟩ : Vec2) ≠ ⟨10, 0⟩ := by
    intro h
    injection h with h1 h2
    norm_num at h1
  exact ⟨(nearestPointOnSegment_spec ⟨3, 3⟩ ⟨3, 3⟩ ⟨9, 9⟩).2.1 rfl,
    hne, (nearestPointOnSegment_spec ⟨0, 0⟩ ⟨10, 0⟩ ⟨5, 5⟩).2.2 hne⟩

/-- C6: `Normalize01` always returns a value in `[0, 1]`; on a degenerate
interval it returns `1` when `value > start` and `0` otherwise, and
otherwise the fractional position of `value` clamped to `[0, 1]`. -/
theorem normalize01_spec (start finish value : ℝ) :
    (0 ≤ Normalize01 start finish value ∧ Normalize01 start finish value ≤ 1) ∧
    (start = finish → start < value → Normalize01 start finish value = 1) ∧
    (start = finish → value ≤ start → Normalize01 start finish value = 0) ∧
    (start ≠ finish →
      Normalize01 start finish value = Clamp01 ((value - start) / (finish - start))) := by
  by_cases h : start = finish
  · rw [Normalize01, if_pos h]
    by_cases hv : value > start
    · rw [if_pos hv]
      exact ⟨⟨by norm_num, le_refl 1⟩, fun _ _ => rfl,
        fun _ hle => absurd hv (not_lt.mpr hle), fun hne => absurd h hne⟩
    · rw [if_neg hv]
      exact ⟨⟨le_refl 0, by norm_num⟩, fun _ hlt => absurd hlt hv,
        fun _ _ => rfl, fun hne => absurd h hne⟩
  · rw [Normalize01, if_neg h]
    exact ⟨⟨clamp01_nonneg _, clamp01_le_one _⟩, fun he => absurd he h,
      fun he => absurd he h, fun _ => rfl⟩

/-- Witness for C6 at the interval `[0, 10]` with value `5` and the
degenerate interval `[5, 5]` with values `6` and `4`. -/
theorem normalize01_spec_witness :
    ((0 : ℝ) ≠ 10 ∧ Normalize01 0 10 5 = Clamp01 ((5 - 0) / (10 - 0))) ∧
    Normalize01 5 5 6 = 1 ∧ Normalize01 5 5 4 = 0 := by
  have hne : (0 : ℝ) ≠ 10 := by norm_num
  exact ⟨⟨hne, (normalize01_spec 0 10 5).2.2.2 hne⟩,
    (normalize01_spec 5 5 6).2.1 rfl (by norm_num),
    (normalize01_spec 5 5 4).2.2.1 rfl (by norm_num)⟩

/-- C7: `Distance` computes the Euclidean norm of the difference, is
non-negative, and vanishes exactly when the two points coincide. -/
theorem distance_spec (a b : Vec2) :
    Distance a b = Real.sqrt ((b.x - a.x) * (b.x - a.x) + (b.y - a.y) * (b.y - a.y)) ∧
    0 ≤ Distance a b ∧
    (Distance a b = 0 ↔ a = b) := by
  obtain ⟨ax, ay⟩ := a
  obtain ⟨bx, b2⟩ := b
  refine ⟨rfl, Real.sqrt_nonneg _, ?_⟩
  show Real.sqrt ((bx - ax) * (bx - ax) + (b2 - ay) * (b2 - ay)) = 0 ↔
    Vec2.mk ax ay = Vec2.mk bx b2
  rw [Real.sqrt_eq_zero (add_nonneg (mul_self_nonneg _) (mul_self_nonneg _))]
  constructor
  · intro h
    have h1 : bx - ax = 0 := by
      nlinarith [mul_self_nonneg (bx - ax), mul_self_nonneg (b2 - ay)]
    have h2 : b2 - ay = 0 := by
      nlinarith [mul_self_nonneg (bx - ax), mul_self_nonneg (b2 - ay)]
    have : ax = bx := by linarith
    have : ay = b2 := by linarith
    simp_all
  · intro h
    injection h with h1 h2
    subst h1
    subst h2
    ring

/-- C3 (amended): `InterpAngle` interpolates along the shorter arc — the
adjusted end angle, and every interpolant before the final normalization,
stay within `π` radians of the normalized start — and the result always
lies in the closed interval `[0, 2π]`. The endpoint `2π` itself is
attainable (see the counterexample), so the half-open interval `[0, 2π)` of
the original claim does not hold. -/
theorem interpAngle_range_shorter_arc (start finish interp_amount : ℝ) :
    0 ≤ InterpAngle start finish interp_amount ∧
    InterpAngle start finish interp_amount ≤ 2 * Real.pi ∧
    |interpAngleEnd start finish - normalize_angle start| ≤ Real.pi ∧
    |Interp (normalize_angle start) (interpAngleEnd start finish) interp_amount -
      normalize_angle start| ≤ Real.pi :=
  ⟨normalize_angle_nonneg _, normalize_angle_le _, interpAngleEnd_close _ _,
    interp_close _ _ _⟩

/-- Counterexample to C3 as stated: at `start = 7π/4`, `end = π/4`,
`t = 1/2` — inputs already inside `[0, 2π)` — `InterpAngle` returns exactly
`2π`, which lies outside the half-open interval `[0, 2π)`: the final
normalization loop leaves the value `2π` unchanged because its guard is the
strict comparison `angle > 2π`. -/
theorem interpAngle_attains_two_pi :
    InterpAngle (7 * Real.pi / 4) (Real.pi / 4) (1 / 2) = 2 * Real.pi ∧
    InterpAngle (7 * Real.pi / 4) (Real.pi / 4) (1 / 2) ∉
      Set.Ico (0 : ℝ) (2 * Real.pi) := by
  have hpi := Real.pi_pos
  have h74 : normalize_angle (7 * Real.pi / 4) = 7 * Real.pi / 4 :=
    normalize_angle_of_mem (by linarith) (by linarith)
  have h14 : normalize_angle (Real.pi / 4) = Real.pi / 4 :=
    normalize_angle_of_mem (by linarith) (by linarith)
  have hend : interpAngleEnd (7 * Real.pi / 4) (Real.pi / 4) =
      Real.pi / 4 + 2 * Real.pi := by
    unfold interpAngleEnd
    rw [h74, h14,
      if_pos (by linarith : Real.pi / 4 - 7 * Real.pi / 4 < -Real.pi)]
  have hinterp : Interp (7 * Real.pi / 4) (Real.pi / 4 + 2 * Real.pi) (1 / 2) =
      2 * Real.pi := by
    unfold Interp
    rw [clamp01_of_mem (by norm_num) (by norm_num)]
    ring
  have hval : InterpAngle (7 * Real.pi / 4) (Real.pi / 4) (1 / 2) = 2 * Real.pi := by
    unfold InterpAngle
    rw [h74, hend, hinterp, normalize_angle_of_mem (by linarith) (le_refl _)]
  refine ⟨hval, ?_⟩
  rw [hval]
  intro hmem
  exact lt_irrefl _ hmem.2

/-- C4 (amended): every call to `InterpAngle` runs to completion — for every
input some finite fuel makes the fuelled loops finish, with the value of the
total function — and when `start` and `end` lie in the caller's expected
pre-normalized range `[0, 2π]`, the three normalization loops run at most
two iterations in total. The iteration count is, however, not bounded by a
constant over all inputs (see the counterexample). -/
theorem interpAngle_terminates (start finish interp_amount : ℝ) :
    (∃ fuel : ℕ, interpAngleFuel fuel start finish interp_amount =
      some (InterpAngle start finish interp_amount)) ∧
    (0 ≤ start → start ≤ 2 * Real.pi → 0 ≤ finish → finish ≤ 2 * Real.pi →
      interpAngleSteps start finish interp_amount ≤ 2) := by
  constructor
  · refine ⟨interpAngleSteps start finish interp_amount, ?_⟩
    have h1 : stepsUp start ≤ interpAngleSteps start finish interp_amount := by
      unfold interpAngleSteps normalizeAngleSteps
      omega
    have h2 : stepsDown (normUp start) ≤ interpAngleSteps start finish interp_amount := by
      unfold interpAngleSteps normalizeAngleSteps
      omega
    have h3 : stepsUp finish ≤ interpAngleSteps start finish interp_amount := by
      unfold interpAngleSteps normalizeAngleSteps
      omega
    have h4 : stepsDown (normUp finish) ≤ interpAngleSteps start finish interp_amount := by
      unfold interpAngleSteps normalizeAngleSteps
      omega
    have h5 : stepsUp (Interp (normalize_angle start) (interpAngleEnd start finish)
        interp_amount) ≤ interpAngleSteps start finish interp_amount := by
      unfold interpAngleSteps normalizeAngleSteps
      omega
    have h6 : stepsDown (normUp (Interp (normalize_angle start)
        (interpAngleEnd start finish) interp_amount)) ≤
        interpAngleSteps start finish interp_amount := by
      unfold interpAngleSteps normalizeAngleSteps
      omega
    unfold interpAngleFuel
    rw [normalizeAngleFuel_complete _ _ h1 h2, normalizeAngleFuel_complete _ _ h3 h4]
    exact normalizeAngleFuel_complete _ _ h5 h6
  · intro hs0 hs2 hf0 hf2
    have hw := interp_window start finish interp_amount
    unfold interpAngleSteps
    rw [normalizeAngleSteps_of_mem hs0 hs2, normalizeAngleSteps_of_mem hf0 hf2]
    have := normalizeAngleSteps_window hw.1 hw.2
    omega

/-- Witness for C4 at `start = end = 0`, `t = 0`: the call terminates and
runs at most two loop iterations. -/
theorem interpAngle_terminates_witness :
    (∃ fuel : ℕ, interpAngleFuel fuel 0 0 0 = some (InterpAngle 0 0 0)) ∧
    interpAngleSteps 0 0 0 ≤ 2 :=
  ⟨(interpAngle_terminates 0 0 0).1,
    (interpAngle_terminates 0 0 0).2 (le_refl 0) (by positivity)
      (le_refl 0) (by positivity)⟩

/-- Counterexample to C4 as stated: in the call
`InterpAngle(-401π, 0, 0)` the normalization loops run more than 100
iterations (the first loop alone runs 201 times), so the loop is not
bounded by a small constant number of iterations over all inputs. -/
theorem interpAngleSteps_unbounded :
    100 < interpAngleSteps (-(401 : ℝ) * Real.pi) 0 0 := by
  have hcast : (-(401 : ℝ) * Real.pi) =
      Real.pi - 2 * Real.pi * (((200 : ℕ) : ℝ) + 1) := by
    push_cast
    ring
  have h201 : stepsUp (-(401 : ℝ) * Real.pi) = 201 := by
    rw [hcast, stepsUp_turns 200]
  unfold interpAngleSteps normalizeAngleSteps
  omega

end StrokeModel
